import Mathlib

/-!
Shallow embedding of the minesweeper repository (src/minesweeper.py,
src/minesweeper_ai.py) and proofs about the claims of its specification.

Modelling choices, documented once here:
* Python machine ints are modelled as `ℤ` (positions, cursor, flag counters —
  the flag counter can go negative in the source) and `ℕ` (cell-state values,
  which are the non-negative constants `EMPTY`, `1..8`, `HIDDEN`, `MINE`,
  `FLAG`).
* Python floats are modelled as `ℚ` (exact arithmetic); the mine-count
  formula `int(max_possible_mines * density)` and the AI's risk arithmetic
  are stated over `ℚ`.
* `board._rows` (a list of lists, every access of which is bounds-checked or
  made at a clamped in-bounds position in the source) is modelled as a total
  function `Pos → ℕ`.
* `random.sample(l, k)` is modelled by `List.take k` of a permutation `σ` of
  `l`; the permutation is the sampling oracle and is universally quantified
  in the theorems.
* Python `set` iteration order is unspecified; where the source iterates a
  set (`_adjacent_pos`, worklist pushes, `reveal_mines`) we fix one
  enumeration (`adjacentList`, a pointwise override for `reveal_mines`).
* The `while` worklist loop of `reveal_from` appears twice: `revealLoop`,
  a well-founded recursion in the exact shape of the source loop, and
  `revealLoopF`, the same loop guarded by explicit fuel, used by
  `revealFrom` so that concrete boards evaluate inside the kernel.  The two
  are proved equal (`revealLoopF_eq`), which is precisely the termination
  statement for the loop.
* The AI's per-turn memoization cache is semantically transparent and is
  omitted; its absent accessors `num_hidden`/`num_flags` are modelled from
  the spec (see `numHidden`).
-/

namespace Minesweeper

abbrev Pos : Type := ℤ × ℤ

/-- Cell-state constants of `BoardState` (`EMPTY = 0`, counts `1..8`,
`HIDDEN = 1 <<< 5`, `MINE = 1 <<< 6`, `FLAG = 1 <<< 7`). -/
def EMPTY : ℕ := 0

def HIDDEN : ℕ := 32

def MINE : ℕ := 64

def FLAG : ℕ := 128

/-- The board: dimensions, mine count, mine set and the mutable grid
(`_rows`, modelled as a total function). -/
structure BoardState where
  width : ℤ
  height : ℤ
  numMines : ℕ
  mines : Finset Pos
  rows : Pos → ℕ

/-- `BoardState.is_in_bounds`: `0 <= x < width and 0 <= y < height`. -/
def inBnds (w h : ℤ) (p : Pos) : Prop :=
  0 ≤ p.1 ∧ p.1 < w ∧ 0 ≤ p.2 ∧ p.2 < h

instance (w h : ℤ) (p : Pos) : Decidable (inBnds w h p) := by
  unfold inBnds; infer_instance

def isInBounds (b : BoardState) (p : Pos) : Prop :=
  inBnds b.width b.height p

instance (b : BoardState) (p : Pos) : Decidable (isInBounds b p) := by
  unfold isInBounds; infer_instance

/-- The finite set of in-bounds positions of a `w × h` board. -/
def boundsFin (w h : ℤ) : Finset Pos :=
  Finset.Ico 0 w ×ˢ Finset.Ico 0 h

/-- `BoardState.get`: the cell value, or `none` when out of bounds. -/
def bGet (b : BoardState) (p : Pos) : Option ℕ :=
  if isInBounds b p then some (b.rows p) else none

/-- `BoardState.set`: overwrite a cell, a no-op out of bounds. -/
def bSet (b : BoardState) (p : Pos) (v : ℕ) : BoardState :=
  if isInBounds b p then { b with rows := Function.update b.rows p v } else b

/-- The raw row write `self._rows[y][x] = v` (no bounds guard; the source
only performs it at clamped, hence in-bounds, positions). -/
def rawSet (b : BoardState) (p : Pos) (v : ℕ) : BoardState :=
  { b with rows := Function.update b.rows p v }

/-- `BoardState.clamp_pos`. -/
def clampPos (b : BoardState) (p : Pos) : Pos :=
  (min (b.width - 1) (max p.1 0), min (b.height - 1) (max p.2 0))

/-- One enumeration of `itertools.product([x-1,x,x+1], [y-1,y,y+1])` (the
source turns it into a set of nine distinct positions; the enumeration
order of a Python set is unspecified). -/
def adjacentList (p : Pos) : List Pos :=
  [(p.1 - 1, p.2 - 1), (p.1 - 1, p.2), (p.1 - 1, p.2 + 1),
   (p.1, p.2 - 1), (p.1, p.2), (p.1, p.2 + 1),
   (p.1 + 1, p.2 - 1), (p.1 + 1, p.2), (p.1 + 1, p.2 + 1)]

/-- `BoardState._adjacent_pos`: the nine-position set
`{x-1,x,x+1} × {y-1,y,y+1}` — note it contains `p` itself and is not
clipped to the board. -/
def adjacentPos (p : Pos) : Finset Pos :=
  (adjacentList p).toFinset

/-- `BoardState._count_adjacent_mines`:
`len(self._adjacent_pos(x, y).intersection(self._mines))`. -/
def countAdj (mines : Finset Pos) (p : Pos) : ℕ :=
  (adjacentPos p ∩ mines).card

/-- `BoardState.reveal_mines`: `set(mine, MINE)` for every mine.  The
source folds `set` over the mine set; since the written positions are
distinct and the written value is constant, the fold equals this pointwise
override, which is the form we use (Python set iteration order is
unspecified). -/
def revealMines (b : BoardState) : BoardState :=
  { b with rows := fun p => if p ∈ b.mines ∧ isInBounds b p then MINE else b.rows p }

/-- The worklist loop of `BoardState.reveal_from` in its source shape:
pop a position; skip it when out of bounds or already visited; otherwise
mark it visited and write its adjacent-mine count (or `EMPTY`, pushing all
nine neighbours, when the count is zero).  `deque.append`/`deque.pop`
operate on the same end, i.e. the worklist is a stack, modelled with the
list head as the top.  Well-founded: each step either shrinks the worklist
or enlarges `visited` inside the finite `boundsFin w h`. -/
def revealLoop (w h : ℤ) (mines : Finset Pos) (visited : Finset Pos)
    (toVisit : List Pos) (rows : Pos → ℕ) : Pos → ℕ :=
  match toVisit with
  | [] => rows
  | p :: rest =>
    if ¬ inBnds w h p ∨ p ∈ visited then
      revealLoop w h mines visited rest rows
    else if 0 < countAdj mines p then
      revealLoop w h mines (insert p visited) rest
        (Function.update rows p (countAdj mines p))
    else
      revealLoop w h mines (insert p visited) (adjacentList p ++ rest)
        (Function.update rows p EMPTY)
termination_by ((boundsFin w h \ visited).card, toVisit.length)
decreasing_by
  · exact Prod.Lex.right _ (by simp)
  · rename_i hor hcnt
    rw [not_or, not_not] at hor
    refine Prod.Lex.left _ _ ?_
    rw [Finset.sdiff_insert]
    refine Finset.card_erase_lt_of_mem (Finset.mem_sdiff.2 ⟨?_, hor.2⟩)
    simp only [boundsFin, Finset.mem_product, Finset.mem_Ico]
    exact ⟨⟨hor.1.1, hor.1.2.1⟩, hor.1.2.2⟩
  · rename_i hor hcnt
    rw [not_or, not_not] at hor
    refine Prod.Lex.left _ _ ?_
    rw [Finset.sdiff_insert]
    refine Finset.card_erase_lt_of_mem (Finset.mem_sdiff.2 ⟨?_, hor.2⟩)
    simp only [boundsFin, Finset.mem_product, Finset.mem_Ico]
    exact ⟨⟨hor.1.1, hor.1.2.1⟩, hor.1.2.2⟩

/-- The same loop, recording the `(position, value)` writes it performs
instead of performing them.  The loop never reads `rows`, so running it is
applying these writes in order (`revealLoop_eq_applyWrites`). -/
def revealWrites (w h : ℤ) (mines : Finset Pos) (visited : Finset Pos)
    (toVisit : List Pos) : List (Pos × ℕ) :=
  match toVisit with
  | [] => []
  | p :: rest =>
    if ¬ inBnds w h p ∨ p ∈ visited then
      revealWrites w h mines visited rest
    else if 0 < countAdj mines p then
      (p, countAdj mines p) :: revealWrites w h mines (insert p visited) rest
    else
      (p, EMPTY) :: revealWrites w h mines (insert p visited) (adjacentList p ++ rest)
termination_by ((boundsFin w h \ visited).card, toVisit.length)
decreasing_by
  · exact Prod.Lex.right _ (by simp)
  · rename_i hor hcnt
    rw [not_or, not_not] at hor
    refine Prod.Lex.left _ _ ?_
    rw [Finset.sdiff_insert]
    refine Finset.card_erase_lt_of_mem (Finset.mem_sdiff.2 ⟨?_, hor.2⟩)
    simp only [boundsFin, Finset.mem_product, Finset.mem_Ico]
    exact ⟨⟨hor.1.1, hor.1.2.1⟩, hor.1.2.2⟩
  · rename_i hor hcnt
    rw [not_or, not_not] at hor
    refine Prod.Lex.left _ _ ?_
    rw [Finset.sdiff_insert]
    refine Finset.card_erase_lt_of_mem (Finset.mem_sdiff.2 ⟨?_, hor.2⟩)
    simp only [boundsFin, Finset.mem_product, Finset.mem_Ico]
    exact ⟨⟨hor.1.1, hor.1.2.1⟩, hor.1.2.2⟩

/-- Fuel-guarded copy of `revealLoop`; when the fuel runs out it returns
the rows unchanged.  `revealLoopF_eq` proves the fuel below is never
exhausted, so this is the same function; it exists because well-founded
definitions do not reduce inside the kernel, and concrete game runs must. -/
def revealLoopF (w h : ℤ) (mines : Finset Pos) (fuel : ℕ) (visited : Finset Pos)
    (toVisit : List Pos) (rows : Pos → ℕ) : Pos → ℕ :=
  match fuel, toVisit with
  | _, [] => rows
  | 0, _ :: _ => rows
  | fuel + 1, p :: rest =>
    if ¬ inBnds w h p ∨ p ∈ visited then
      revealLoopF w h mines fuel visited rest rows
    else if 0 < countAdj mines p then
      revealLoopF w h mines fuel (insert p visited) rest
        (Function.update rows p (countAdj mines p))
    else
      revealLoopF w h mines fuel (insert p visited) (adjacentList p ++ rest)
        (Function.update rows p EMPTY)

/-- An explicit iteration bound for the worklist loop: every skip step
costs one iteration and pops one item, every write step costs one
iteration, pushes at most nine items and permanently consumes one
in-bounds unvisited position. -/
def fuelBound (w h : ℤ) : ℕ :=
  10 * (boundsFin w h).card + 2

/-- `BoardState.reveal_from(x, y)`: run the worklist loop (see
`revealLoopF`/`revealLoop`) starting from the singleton worklist
`[(x, y)]` with an empty visited set; only `_rows` is mutated. -/
def revealFrom (b : BoardState) (x y : ℤ) : BoardState :=
  { b with rows := revealLoopF b.width b.height b.mines (fuelBound b.width b.height) ∅ [(x, y)] b.rows }

/-- Apply a list of `(position, value)` writes to the rows, earlier writes
first. -/
def applyWrites (ws : List (Pos × ℕ)) (rows : Pos → ℕ) : Pos → ℕ :=
  ws.foldl (fun r wv => Function.update r wv.1 wv.2) rows

/-- The last value a write list assigns to a position, if any. -/
def lastVal : List (Pos × ℕ) → Pos → Option ℕ
  | [], _ => none
  | wv :: ws, p =>
    match lastVal ws p with
    | some v => some v
    | none => if wv.1 = p then some wv.2 else none

/-- `list(itertools.product(xrange(width), xrange(height)))`: all board
positions, x-major. -/
def allPositions (w h : ℤ) : List Pos :=
  ((List.range w.toNat).product (List.range h.toNat)).map
    (fun q => ((q.1 : ℤ), (q.2 : ℤ)))

/-- `BoardState._create_mines`: `random.sample(allPositions, num_mines)`,
modelled as the first `num_mines` entries of a permutation `σ` of the
position list (the permutation is the sampling oracle). -/
def createMines (numMines : ℕ) (σ : List Pos) : List Pos :=
  σ.take numMines

/-- `BoardState.reset`: re-sample the mine set and re-initialize every
cell to `HIDDEN`. -/
def boardReset (b : BoardState) (σ : List Pos) : BoardState :=
  { b with mines := (createMines b.numMines σ).toFinset, rows := fun _ => HIDDEN }

/-- `BoardState.__init__(height, width, density)` followed by its `reset`:
`num_mines = max(1, int((width*height - 1) * density))`. -/
def mkBoard (height width : ℤ) (density : ℚ) (σ : List Pos) : BoardState :=
  boardReset
    { width := width, height := height,
      numMines := max 1 (⌊(((width * height : ℤ) : ℚ) - 1) * density⌋.toNat),
      mines := ∅, rows := fun _ => HIDDEN } σ

/-- Game states, modelled from the spec: the module `game` (providing
`State`) is not under src/; §3 and §4.2 of the spec give the four states
`Starting`, `Active`, `Victory`, `Defeat`, and the source tests them with
bit masks (`state & State.STARTING`, `state & State.GAME_OVER`), so they
are modelled as distinct bits with `GAME_OVER` the `Victory|Defeat` mask. -/
def STARTING : ℕ := 1

def ACTIVE : ℕ := 2

def VICTORY : ℕ := 4

def DEFEAT : ℕ := 8

def GAME_OVER : ℕ := VICTORY ||| DEFEAT

/-- `CmdType` bit-flag constants. -/
def CmdType.NONE : ℕ := 0

def CmdType.TOGGLE_FLAG : ℕ := 2

def CmdType.REVEAL : ℕ := 8

def CmdType.LEFT : ℕ := 32

def CmdType.RIGHT : ℕ := 64

def CmdType.UP : ℕ := 128

def CmdType.DOWN : ℕ := 256

def CmdType.MOVE : ℕ := CmdType.LEFT ||| CmdType.RIGHT ||| CmdType.UP ||| CmdType.DOWN

/-- `Command = namedtuple('Command', ['type', 'x', 'y'])`. -/
structure Command where
  type : ℕ
  x : ℤ
  y : ℤ

/-- `Command.pos = (x, y)`. -/
def Command.pos (c : Command) : Pos :=
  (c.x, c.y)

/-- The `MineSweeper` game object: board, cursor, state and the two flag
counters (title/footer/message strings and the wall-clock timer carry no
algorithmic content and are omitted). -/
structure GameState where
  board : BoardState
  cursorPos : Pos
  state : ℕ
  numFlags : ℤ
  numMinesFlagged : ℤ

/-- `MineSweeper.game_over`: `self._state & State.GAME_OVER` (truthiness). -/
def gameOver (s : GameState) : Prop :=
  s.state &&& GAME_OVER ≠ 0

instance (s : GameState) : Decidable (gameOver s) := by
  unfold gameOver; infer_instance

/-- `MineSweeper._start` (the timer is omitted). -/
def startTick (s : GameState) : GameState :=
  { s with state := ACTIVE }

/-- `MineSweeper._end(is_victory)` (message/timer omitted). -/
def endGame (s : GameState) (isVictory : Bool) : GameState :=
  if isVictory then { s with state := VICTORY }
  else { s with board := revealMines s.board, state := DEFEAT }

/-- The cursor position computed by `MineSweeper._handle_movement`: the
command's carried position plus the directional deltas (DOWN: y+1,
LEFT: x-1, RIGHT: x+1, UP: y-1; the four updates are additive, so their
source order is immaterial). -/
def movedPos (c : Command) : Pos :=
  (c.x + (if c.type &&& CmdType.LEFT ≠ 0 then -1 else 0)
       + (if c.type &&& CmdType.RIGHT ≠ 0 then 1 else 0),
   c.y + (if c.type &&& CmdType.DOWN ≠ 0 then 1 else 0)
       + (if c.type &&& CmdType.UP ≠ 0 then -1 else 0))

/-- `MineSweeper._handle_movement`: clamp the moved position and store it
as the cursor. -/
def handleMovement (s : GameState) (c : Command) : GameState :=
  { s with cursorPos := clampPos s.board (movedPos c) }

/-- `MineSweeper._handle_reveal`: gated on the REVEAL bit, then on the
cell at the command's carried position (`command.pos`, not the cursor)
being `HIDDEN`; defeat when the cursor is on a mine, else flood-fill from
the cursor. -/
def handleReveal (s : GameState) (c : Command) : GameState :=
  if c.type &&& CmdType.REVEAL = 0 then s
  else if bGet s.board c.pos ≠ some HIDDEN then s
  else if s.cursorPos ∈ s.board.mines then endGame s false
  else { s with board := revealFrom s.board s.cursorPos.1 s.cursorPos.2 }

/-- `MineSweeper._all_mines_found`:
`mines_flagged == num_mines and mines_flagged <= num_mines`. -/
def allMinesFound (s : GameState) : Prop :=
  s.numMinesFlagged = (s.board.numMines : ℤ) ∧ s.numMinesFlagged ≤ (s.board.numMines : ℤ)

instance (s : GameState) : Decidable (allMinesFound s) := by
  unfold allMinesFound; infer_instance

/-- `MineSweeper._handle_toggle_flag`: gated on the TOGGLE_FLAG bit.  When
the cursor cell is `HIDDEN`, flag it (guarded `set`), increment the flag
counter, increment the matched-mine counter when `command.pos` is a mine
and declare victory when `_all_mines_found()`; otherwise (any non-HIDDEN
cursor cell) write `HIDDEN` over it (raw row write), decrement the flag
counter and decrement the matched-mine counter when `command.pos` is a
mine.  (The title string update is omitted.) -/
def handleToggleFlag (s : GameState) (c : Command) : GameState :=
  if c.type &&& CmdType.TOGGLE_FLAG = 0 then s
  else if bGet s.board s.cursorPos = some HIDDEN then
    let s1 := { s with board := bSet s.board s.cursorPos FLAG, numFlags := s.numFlags + 1 }
    let s2 := if c.pos ∈ s1.board.mines then
        { s1 with numMinesFlagged := s1.numMinesFlagged + 1 } else s1
    if allMinesFound s2 then endGame s2 true else s2
  else
    let s1 := { s with board := rawSet s.board s.cursorPos HIDDEN, numFlags := s.numFlags - 1 }
    if c.pos ∈ s1.board.mines then
      { s1 with numMinesFlagged := s1.numMinesFlagged - 1 } else s1

/-- `MineSweeper.update(command)`: a `STARTING` game consumes one update
as the start tick; a `None`/`NONE` command or a finished game is a no-op;
otherwise the movement, reveal and toggle-flag handlers run in order. -/
def update (s : GameState) (c : Option Command) : GameState :=
  if s.state &&& STARTING ≠ 0 then startTick s
  else
    match c with
    | none => s
    | some c =>
      if c.type = CmdType.NONE ∨ gameOver s then s
      else handleToggleFlag (handleReveal (handleMovement s c) c) c

/-- `MineSweeper.reset` composed with construction: a fresh board (see
`mkBoard`) in the `STARTING` state with cursor `(0, 0)` and zeroed
counters. -/
def mkGame (height width : ℤ) (density : ℚ) (σ : List Pos) : GameState :=
  { board := mkBoard height width density σ, cursorPos := (0, 0),
    state := STARTING, numFlags := 0, numMinesFlagged := 0 }

/-- Modelled from the spec: the accessor `num_hidden` used by the AI is
absent from src/ (only its caller is present); §4.3 reads "global base
probability = (totalMines − flagsPlaced) / (totalHidden − flagsPlaced)"
with totalHidden the number of `Hidden` cells, so it is the count of
in-bounds cells whose state is `HIDDEN`. -/
def numHidden (b : BoardState) : ℕ :=
  ((boundsFin b.width b.height).filter (fun p => b.rows p = HIDDEN)).card

/-- `MineSweeperAI._count_neighbours_state`: how many of the nine
`_adjacent_pos` entries hold a cell whose `get` equals `state` (the
memoization cache is semantically transparent and omitted). -/
def countNbrState (b : BoardState) (p : Pos) (st : ℕ) : ℕ :=
  ((adjacentPos p).filter (fun q => bGet b q = some st)).card

/-- `MineSweeperAI._is_definite_safe`: some neighbour's flagged-neighbour
count equals its cell value (`count == get(n)` is false on a `None` cell,
so this is `get n = some (flag count of n)`). -/
def isDefiniteSafe (b : BoardState) (p : Pos) : Bool :=
  (adjacentList p).any fun q => bGet b q == some (countNbrState b q FLAG)

/-- `MineSweeperAI._is_definite_mine`: some neighbour `n` with a cell
value `≤ 8` has `hidden-neighbour count ≤ value - flagged-neighbour
count` (`None` cells are skipped; the subtraction is over ℤ). -/
def isDefiniteMine (b : BoardState) (p : Pos) : Bool :=
  (adjacentList p).any fun q =>
    match bGet b q with
    | none => false
    | some st =>
      decide (st ≤ 8) &&
        decide ((countNbrState b q HIDDEN : ℤ) ≤ (st : ℤ) - (countNbrState b q FLAG : ℤ))

/-- The AI's `general_prob`:
`(num_mines - num_flags) / (num_hidden - num_flags)` over exact rationals. -/
def generalProb (s : GameState) : ℚ :=
  ((s.board.numMines : ℚ) - (s.numFlags : ℚ)) /
    ((numHidden s.board : ℚ) - (s.numFlags : ℚ))

/-- The AI's inner function `prob_mine(ax, ay)`: half the base probability
off-board, the base probability on an uninformative (value > 8) cell, and
`(val - flagged neighbours) / hidden neighbours` on a revealed count cell. -/
def probMine (s : GameState) (q : Pos) : ℚ :=
  match bGet s.board q with
  | none => generalProb s / 2
  | some v =>
    if 8 < v then generalProb s
    else ((v : ℚ) - (countNbrState s.board q FLAG : ℚ)) / (countNbrState s.board q HIDDEN : ℚ)

/-- `MineSweeperAI._calc_risk` (the `CellRisk` wrapper is dropped: only
the numeric risk matters; the `p is not None` filter is a no-op because
`prob_mine` always returns a number, and the nine probabilities are
enumerated via `adjacentList`). -/
def calcRisk (s : GameState) (p : Pos) : ℚ :=
  if isDefiniteSafe s.board p then 0
  else if isDefiniteMine s.board p then 1
  else
    ((adjacentList p).map (probMine s)).sum / (((adjacentList p).map (probMine s)).length : ℚ)

/-- The adjacent-mine count in the words of the spec, for comparison with
the source's `_count_adjacent_mines`: "size of intersection between its
8-neighbor set (clipped to bounds) and the mine-position set" — the
Moore neighborhood excluding `p` itself. -/
def specAdjacentCount (w h : ℤ) (mines : Finset Pos) (p : Pos) : ℕ :=
  ((((adjacentPos p).erase p) ∩ boundsFin w h) ∩ mines).card

/-! ### Demonstration states used by concrete runs

`demoBoard1` is the minimal valid board (2 × 2, one mine at the origin)
in its freshly-reset form, and `demoGame1` the freshly-constructed game
on it; `demoGame1_eq_mkGame` shows it is literally what construction with
density 1/4 and the identity sampling oracle produces. -/

def demoBoard1 : BoardState :=
  { width := 2, height := 2, numMines := 1, mines := {((0 : ℤ), (0 : ℤ))},
    rows := fun _ => HIDDEN }

def demoGame1 : GameState :=
  { board := demoBoard1, cursorPos := (0, 0), state := STARTING,
    numFlags := 0, numMinesFlagged := 0 }

def demoGame1Active : GameState :=
  { demoGame1 with state := ACTIVE }

/-- A 2 × 3 board (width 2, height 3) with one mine at the origin, fresh. -/
def demoBoard2 : BoardState :=
  { width := 2, height := 3, numMines := 1, mines := {((0 : ℤ), (0 : ℤ))},
    rows := fun _ => HIDDEN }

def demoGame2 : GameState :=
  { board := demoBoard2, cursorPos := (0, 0), state := STARTING,
    numFlags := 0, numMinesFlagged := 0 }


/-- All mine positions still show as covered cells (`HIDDEN` or `FLAG`). -/
def MinesOkB (b : BoardState) : Prop :=
  ∀ p ∈ b.mines, b.rows p = HIDDEN ∨ b.rows p = FLAG

/-- The inductive invariant of the game loop: before defeat the mines are
covered, and the `STARTING` bit never coexists with the `DEFEAT` bit. -/
def StateInv (s : GameState) : Prop :=
  (s.state &&& DEFEAT = 0 → MinesOkB s.board) ∧
    (s.state &&& STARTING ≠ 0 → s.state &&& DEFEAT = 0)

/-! ### Basic lemmas -/

theorem mem_boundsFin {w h : ℤ} {p : Pos} : p ∈ boundsFin w h ↔ inBnds w h p := by
  simp only [boundsFin, inBnds, Finset.mem_product, Finset.mem_Ico]
  tauto

theorem mem_adjacentPos {r p : Pos} :
    r ∈ adjacentPos p ↔
      p.1 - 1 ≤ r.1 ∧ r.1 ≤ p.1 + 1 ∧ p.2 - 1 ≤ r.2 ∧ r.2 ≤ p.2 + 1 := by
  obtain ⟨r1, r2⟩ := r
  constructor
  · intro hr
    simp only [adjacentPos, adjacentList, List.mem_toFinset, List.mem_cons,
      List.not_mem_nil, or_false, Prod.mk.injEq] at hr
    rcases hr with h | h | h | h | h | h | h | h | h <;> omega
  · intro hr
    simp only at hr
    have h1 : r1 = p.1 - 1 ∨ r1 = p.1 ∨ r1 = p.1 + 1 := by omega
    have h2 : r2 = p.2 - 1 ∨ r2 = p.2 ∨ r2 = p.2 + 1 := by omega
    simp only [adjacentPos, adjacentList, List.mem_toFinset, List.mem_cons,
      List.not_mem_nil, or_false, Prod.mk.injEq]
    tauto

theorem adjacentPos_comm {q p : Pos} : q ∈ adjacentPos p ↔ p ∈ adjacentPos q := by
  rw [mem_adjacentPos, mem_adjacentPos]
  omega

theorem self_mem_adjacentPos (p : Pos) : p ∈ adjacentPos p := by
  rw [mem_adjacentPos]
  omega

theorem mem_adjacentList_iff {r p : Pos} : r ∈ adjacentList p ↔ r ∈ adjacentPos p := by
  simp [adjacentPos]

/-! ### Write lists -/

theorem applyWrites_apply (ws : List (Pos × ℕ)) (rows : Pos → ℕ) (p : Pos) :
    applyWrites ws rows p = (lastVal ws p).getD (rows p) := by
  induction ws generalizing rows with
  | nil => rfl
  | cons wv ws ih =>
    have h1 : applyWrites (wv :: ws) rows = applyWrites ws (Function.update rows wv.1 wv.2) := rfl
    rw [h1, ih, lastVal]
    cases hl : lastVal ws p with
    | some v => simp
    | none =>
      rcases eq_or_ne wv.1 p with h | h
      · subst h
        simp [Function.update]
      · simp [Function.update, h, Ne.symm h]

theorem applyWrites_applyWrites (ws : List (Pos × ℕ)) (rows : Pos → ℕ) :
    applyWrites ws (applyWrites ws rows) = applyWrites ws rows := by
  funext p
  rw [applyWrites_apply, applyWrites_apply]
  cases lastVal ws p <;> simp

theorem lastVal_eq_none (ws : List (Pos × ℕ)) (p : Pos) (h : ∀ wv ∈ ws, wv.1 ≠ p) :
    lastVal ws p = none := by
  induction ws with
  | nil => rfl
  | cons wv ws ih =>
    rw [lastVal, ih (fun x hx => h x (List.mem_cons_of_mem _ hx))]
    simp [h wv (List.mem_cons_self _ _)]

theorem applyWrites_not_written (ws : List (Pos × ℕ)) (rows : Pos → ℕ) (p : Pos)
    (h : ∀ wv ∈ ws, wv.1 ≠ p) : applyWrites ws rows p = rows p := by
  rw [applyWrites_apply, lastVal_eq_none ws p h]
  rfl

/-! ### The worklist loop: writes view, fuel elimination, termination -/

theorem card_sdiff_insert_of_mem {v : Finset Pos} {p : Pos} (w h : ℤ)
    (hin : inBnds w h p) (hnv : p ∉ v) :
    (boundsFin w h \ insert p v).card + 1 = (boundsFin w h \ v).card := by
  have hmem : p ∈ boundsFin w h \ v := Finset.mem_sdiff.2 ⟨mem_boundsFin.2 hin, hnv⟩
  rw [Finset.sdiff_insert, Finset.card_erase_of_mem hmem]
  have hpos : 0 < (boundsFin w h \ v).card := Finset.card_pos.2 ⟨p, hmem⟩
  omega

theorem revealLoop_eq_applyWrites (w h : ℤ) (mines : Finset Pos) (visited : Finset Pos)
    (toVisit : List Pos) (rows : Pos → ℕ) :
    revealLoop w h mines visited toVisit rows =
      applyWrites (revealWrites w h mines visited toVisit) rows := by
  induction visited, toVisit using revealWrites.induct w h mines generalizing rows with
  | case1 v =>
    simp [revealLoop, revealWrites, applyWrites]
  | case2 v p rest hcond ih =>
    simp only [revealLoop, revealWrites]
    rw [if_pos hcond, if_pos hcond]
    exact ih rows
  | case3 v p rest hcond hcnt ih =>
    simp only [revealLoop, revealWrites]
    rw [if_neg hcond, if_neg hcond, if_pos hcnt, if_pos hcnt, ih]
    rfl
  | case4 v p rest hcond hcnt ih =>
    simp only [revealLoop, revealWrites]
    rw [if_neg hcond, if_neg hcond, if_neg hcnt, if_neg hcnt, ih]
    rfl

theorem revealLoopF_eq (w h : ℤ) (mines : Finset Pos) (visited : Finset Pos)
    (toVisit : List Pos) (rows : Pos → ℕ) :
    ∀ fuel : ℕ, 10 * ((boundsFin w h) \ visited).card + toVisit.length < fuel →
      revealLoopF w h mines fuel visited toVisit rows =
        revealLoop w h mines visited toVisit rows := by
  induction visited, toVisit, rows using revealLoop.induct w h mines with
  | case1 v rows =>
    intro fuel hf
    obtain ⟨f, rfl⟩ : ∃ f, fuel = f + 1 := ⟨fuel - 1, by omega⟩
    simp [revealLoopF, revealLoop]
  | case2 v rows p rest hcond ih =>
    intro fuel hf
    obtain ⟨f, rfl⟩ : ∃ f, fuel = f + 1 := ⟨fuel - 1, by omega⟩
    simp only [revealLoopF, revealLoop]
    rw [if_pos hcond, if_pos hcond]
    apply ih
    simp only [List.length_cons] at hf
    omega
  | case3 v rows p rest hcond hcnt ih =>
    intro fuel hf
    obtain ⟨f, rfl⟩ : ∃ f, fuel = f + 1 := ⟨fuel - 1, by omega⟩
    simp only [revealLoopF, revealLoop]
    rw [if_neg hcond, if_neg hcond, if_pos hcnt, if_pos hcnt]
    apply ih
    rw [not_or, not_not] at hcond
    have hcard := card_sdiff_insert_of_mem w h hcond.1 hcond.2
    simp only [List.length_cons] at hf
    omega
  | case4 v rows p rest hcond hcnt ih =>
    intro fuel hf
    obtain ⟨f, rfl⟩ : ∃ f, fuel = f + 1 := ⟨fuel - 1, by omega⟩
    simp only [revealLoopF, revealLoop]
    rw [if_neg hcond, if_neg hcond, if_neg hcnt, if_neg hcnt]
    apply ih
    rw [not_or, not_not] at hcond
    have hcard := card_sdiff_insert_of_mem w h hcond.1 hcond.2
    simp only [List.length_cons, List.length_append, List.length_nil, adjacentList] at hf ⊢
    omega

theorem revealFrom_eq_loop (b : BoardState) (x y : ℤ) :
    revealFrom b x y =
      { b with rows := revealLoop b.width b.height b.mines ∅ [(x, y)] b.rows } := by
  have hf : revealLoopF b.width b.height b.mines (fuelBound b.width b.height) ∅ [(x, y)] b.rows =
      revealLoop b.width b.height b.mines ∅ [(x, y)] b.rows := by
    apply revealLoopF_eq
    rw [Finset.sdiff_empty]
    simp [fuelBound]
  rw [revealFrom, hf]

theorem revealWrites_not_mine (w h : ℤ) (mines : Finset Pos) (visited : Finset Pos)
    (toVisit : List Pos) :
    (∀ q ∈ toVisit, q ∉ mines) →
      ∀ wv ∈ revealWrites w h mines visited toVisit, wv.1 ∉ mines := by
  induction visited, toVisit using revealWrites.induct w h mines with
  | case1 v =>
    intro _ wv hwv
    simp [revealWrites] at hwv
  | case2 v p rest hcond ih =>
    intro ht wv hwv
    simp only [revealWrites] at hwv
    rw [if_pos hcond] at hwv
    exact ih (fun q hq => ht q (List.mem_cons_of_mem _ hq)) wv hwv
  | case3 v p rest hcond hcnt ih =>
    intro ht wv hwv
    simp only [revealWrites] at hwv
    rw [if_neg hcond, if_pos hcnt] at hwv
    rcases List.mem_cons.1 hwv with h | h
    · rw [h]
      exact ht p (List.mem_cons_self _ _)
    · exact ih (fun q hq => ht q (List.mem_cons_of_mem _ hq)) wv h
  | case4 v p rest hcond hcnt ih =>
    intro ht wv hwv
    simp only [revealWrites] at hwv
    rw [if_neg hcond, if_neg hcnt] at hwv
    rcases List.mem_cons.1 hwv with h | h
    · rw [h]
      exact ht p (List.mem_cons_self _ _)
    · refine ih ?_ wv h
      intro q hq
      rcases List.mem_append.1 hq with hq | hq
      · have hzero : countAdj mines p = 0 := Nat.eq_zero_of_not_pos hcnt
        have hempty : adjacentPos p ∩ mines = ∅ := Finset.card_eq_zero.1 hzero
        intro hqm
        have : q ∈ adjacentPos p ∩ mines :=
          Finset.mem_inter.2 ⟨mem_adjacentList_iff.1 hq, hqm⟩
        rw [hempty] at this
        exact absurd this (Finset.not_mem_empty q)
      · exact ht q (List.mem_cons_of_mem _ hq)

theorem revealFrom_rows_of_mine (b : BoardState) (x y : ℤ)
    (hxy : ((x, y) : Pos) ∉ b.mines) {p : Pos} (hp : p ∈ b.mines) :
    (revealFrom b x y).rows p = b.rows p := by
  rw [revealFrom_eq_loop]
  show revealLoop b.width b.height b.mines ∅ [(x, y)] b.rows p = b.rows p
  rw [revealLoop_eq_applyWrites]
  apply applyWrites_not_written
  intro wv hwv heq
  have hnm : wv.1 ∉ b.mines := by
    refine revealWrites_not_mine b.width b.height b.mines ∅ [(x, y)] ?_ wv hwv
    intro q hq
    rcases List.mem_singleton.1 hq with rfl
    exact hxy
  exact hnm (heq ▸ hp)

/-! ### State-machine lemmas -/

theorem land_mask_zero {n m k : ℕ} (hmk : m &&& k = k) (h : n &&& m = 0) :
    n &&& k = 0 := by
  have hstep : n &&& k = (n &&& m) &&& k := by rw [Nat.and_assoc, hmk]
  rw [hstep, h]
  simp

theorem minesOkB_rawSet {b : BoardState} (hmo : MinesOkB b) {v : ℕ}
    (hv : v = HIDDEN ∨ v = FLAG) (p : Pos) : MinesOkB (rawSet b p v) := by
  intro q hq
  have hq' : q ∈ b.mines := hq
  show Function.update b.rows p v q = HIDDEN ∨ Function.update b.rows p v q = FLAG
  by_cases hqp : q = p
  · subst hqp
    rw [Function.update_same]
    tauto
  · rw [Function.update_noteq hqp]
    exact hmo q hq'

theorem minesOkB_bSet {b : BoardState} (hmo : MinesOkB b) {v : ℕ}
    (hv : v = HIDDEN ∨ v = FLAG) (p : Pos) : MinesOkB (bSet b p v) := by
  unfold bSet
  split
  · exact minesOkB_rawSet hmo hv p
  · exact hmo

theorem minesOkB_revealFrom {b : BoardState} (hmo : MinesOkB b) {x y : ℤ}
    (hxy : ((x, y) : Pos) ∉ b.mines) : MinesOkB (revealFrom b x y) := by
  intro p hp
  have hpm : p ∈ b.mines := hp
  show (revealFrom b x y).rows p = HIDDEN ∨ (revealFrom b x y).rows p = FLAG
  rw [revealFrom_rows_of_mine b x y hxy hpm]
  exact hmo p hpm

theorem bGet_revealMines_ne_hidden {b : BoardState} {p : Pos} (hp : p ∈ b.mines) :
    bGet (revealMines b) p ≠ some HIDDEN := by
  show (if isInBounds b p then
      some (if p ∈ b.mines ∧ isInBounds b p then MINE else b.rows p) else none) ≠ some HIDDEN
  split
  · rename_i hin
    rw [if_pos ⟨hp, hin⟩]
    simp [MINE, HIDDEN]
  · simp

theorem bSet_mines (b : BoardState) (p : Pos) (v : ℕ) : (bSet b p v).mines = b.mines := by
  unfold bSet
  split <;> rfl

theorem stateInv_toggle_nodefeat {s : GameState} (c : Command)
    (hd : s.state &&& DEFEAT = 0) (hmo : MinesOkB s.board) :
    StateInv (handleToggleFlag s c) := by
  unfold handleToggleFlag
  by_cases hbit : c.type &&& CmdType.TOGGLE_FLAG = 0
  · rw [if_pos hbit]
    exact ⟨fun _ => hmo, fun _ => hd⟩
  rw [if_neg hbit]
  by_cases hhid : bGet s.board s.cursorPos = some HIDDEN
  · rw [if_pos hhid]
    dsimp only
    simp only [bSet_mines]
    by_cases hmine : c.pos ∈ s.board.mines
    · rw [if_pos hmine]
      split
      · exact ⟨fun _ => minesOkB_bSet hmo (Or.inr rfl) _,
          fun _ => show VICTORY &&& DEFEAT = 0 by decide⟩
      · exact ⟨fun _ => minesOkB_bSet hmo (Or.inr rfl) _, fun _ => hd⟩
    · rw [if_neg hmine]
      split
      · exact ⟨fun _ => minesOkB_bSet hmo (Or.inr rfl) _,
          fun _ => show VICTORY &&& DEFEAT = 0 by decide⟩
      · exact ⟨fun _ => minesOkB_bSet hmo (Or.inr rfl) _, fun _ => hd⟩
  · rw [if_neg hhid]
    dsimp only
    split
    · exact ⟨fun _ => minesOkB_rawSet hmo (Or.inl rfl) _, fun _ => hd⟩
    · exact ⟨fun _ => minesOkB_rawSet hmo (Or.inl rfl) _, fun _ => hd⟩

theorem stateInv_toggle_defeat {s : GameState} (c : Command)
    (hd : s.state &&& DEFEAT ≠ 0) (hst : s.state &&& STARTING = 0)
    (hcur : bGet s.board s.cursorPos ≠ some HIDDEN) :
    StateInv (handleToggleFlag s c) := by
  unfold handleToggleFlag
  by_cases hbit : c.type &&& CmdType.TOGGLE_FLAG = 0
  · rw [if_pos hbit]
    exact ⟨fun h2 => absurd h2 hd, fun h2 => absurd hst h2⟩
  rw [if_neg hbit, if_neg hcur]
  dsimp only
  split
  · exact ⟨fun h2 => absurd h2 hd, fun h2 => absurd hst h2⟩
  · exact ⟨fun h2 => absurd h2 hd, fun h2 => absurd hst h2⟩

theorem stateInv_update (s : GameState) (c : Option Command) (h : StateInv s) :
    StateInv (update s c) := by
  unfold update
  by_cases hstb : s.state &&& STARTING ≠ 0
  · rw [if_pos hstb]
    have hd : s.state &&& DEFEAT = 0 := h.2 hstb
    exact ⟨fun _ => h.1 hd, fun h2 => absurd (show ACTIVE &&& STARTING = 0 by decide) h2⟩
  · rw [if_neg hstb]
    cases c with
    | none => exact h
    | some c =>
      dsimp only
      by_cases hngo : c.type = CmdType.NONE ∨ gameOver s
      · rw [if_pos hngo]
        exact h
      · rw [if_neg hngo]
        push_neg at hngo
        obtain ⟨hcne, hgo⟩ := hngo
        unfold gameOver at hgo
        rw [not_not] at hgo
        have hd : s.state &&& DEFEAT = 0 := land_mask_zero (by decide) hgo
        have hmo : MinesOkB s.board := h.1 hd
        unfold handleReveal handleMovement
        dsimp only
        by_cases hr1 : c.type &&& CmdType.REVEAL = 0
        · rw [if_pos hr1]
          exact stateInv_toggle_nodefeat c hd hmo
        rw [if_neg hr1]
        by_cases hr2 : bGet s.board c.pos ≠ some HIDDEN
        · rw [if_pos hr2]
          exact stateInv_toggle_nodefeat c hd hmo
        rw [if_neg hr2]
        by_cases hr3 : clampPos s.board (movedPos c) ∈ s.board.mines
        · rw [if_pos hr3]
          apply stateInv_toggle_defeat
          · exact show DEFEAT &&& DEFEAT ≠ 0 by decide
          · exact show DEFEAT &&& STARTING = 0 by decide
          · show bGet (revealMines s.board) (clampPos s.board (movedPos c)) ≠ some HIDDEN
            exact bGet_revealMines_ne_hidden hr3
        · rw [if_neg hr3]
          apply stateInv_toggle_nodefeat c
          · exact hd
          · show MinesOkB (revealFrom s.board (clampPos s.board (movedPos c)).1
              (clampPos s.board (movedPos c)).2)
            apply minesOkB_revealFrom hmo
            exact hr3

theorem stateInv_foldl (cmds : List (Option Command)) :
    ∀ s0 : GameState, StateInv s0 → StateInv (cmds.foldl update s0) := by
  induction cmds with
  | nil => exact fun s0 h0 => h0
  | cons c cmds ih => exact fun s0 h0 => ih _ (stateInv_update s0 c h0)

/-! ### Claims C3, C6, C9 -/

/-- C3: starting from a freshly-reset game (all cells `HIDDEN`, state
`STARTING`), after any sequence of `update` calls whose result has not
reached `DEFEAT`, every mine position's cell state is still `HIDDEN` or
`FLAG`: movement, reveal and toggle-flag never expose a mine position (in
particular the flood-fill never writes to a mine position), and only the
defeat transition's `revealMines` does. -/
theorem C3_mines_stay_covered (s0 : GameState) (cmds : List (Option Command))
    (hstart : s0.state = STARTING) (hrows : ∀ p, s0.board.rows p = HIDDEN) :
    (cmds.foldl update s0).state &&& DEFEAT = 0 →
      ∀ p ∈ (cmds.foldl update s0).board.mines,
        (cmds.foldl update s0).board.rows p = HIDDEN ∨
          (cmds.foldl update s0).board.rows p = FLAG := by
  have h0 : StateInv s0 := by
    constructor
    · exact fun _ p _ => Or.inl (hrows p)
    · intro _
      rw [hstart]
      decide
  exact (stateInv_foldl cmds s0 h0).1

/-- Witness for C3: the fresh 2×2 demonstration game after a start tick
and one flag toggle has not reached defeat, and its mine is covered. -/
theorem C3_witness :
    demoGame1.state = STARTING ∧
      (List.foldl update demoGame1
          [some ⟨CmdType.NONE, 0, 0⟩, some ⟨CmdType.TOGGLE_FLAG, 1, 1⟩]).state &&& DEFEAT = 0 ∧
      ∀ p ∈ (List.foldl update demoGame1
          [some ⟨CmdType.NONE, 0, 0⟩, some ⟨CmdType.TOGGLE_FLAG, 1, 1⟩]).board.mines,
        (List.foldl update demoGame1
          [some ⟨CmdType.NONE, 0, 0⟩, some ⟨CmdType.TOGGLE_FLAG, 1, 1⟩]).board.rows p = HIDDEN ∨
        (List.foldl update demoGame1
          [some ⟨CmdType.NONE, 0, 0⟩, some ⟨CmdType.TOGGLE_FLAG, 1, 1⟩]).board.rows p = FLAG :=
  ⟨rfl, by decide,
    C3_mines_stay_covered demoGame1 [some ⟨CmdType.NONE, 0, 0⟩, some ⟨CmdType.TOGGLE_FLAG, 1, 1⟩]
      rfl (fun _ => rfl) (by decide)⟩

/-- C6: `revealFrom` is idempotent — running the flood-fill a second time
from the same origin immediately after a first run changes no further
cell: the loop's control flow and written values depend only on the mine
set and the bounds, never on the current rows. -/
theorem C6_revealFrom_idempotent (b : BoardState) (x y : ℤ) :
    revealFrom (revealFrom b x y) x y = revealFrom b x y := by
  have h1 := revealFrom_eq_loop b x y
  have h2 := revealFrom_eq_loop (revealFrom b x y) x y
  rw [h2, h1]
  dsimp only
  congr 1
  simp only [revealLoop_eq_applyWrites]
  exact applyWrites_applyWrites _ _

/-- C9: the explicit-worklist flood-fill terminates on every board and
origin: the loop is definable as a total function (`revealLoop`, by
well-founded recursion on the unvisited in-bounds positions and the
worklist length), and any fuel of at least `fuelBound` — as used by
`revealFrom` — suffices for the iteration to finish. -/
theorem C9_revealFrom_terminates (b : BoardState) (x y : ℤ) (fuel : ℕ)
    (hfuel : fuelBound b.width b.height ≤ fuel) :
    revealLoopF b.width b.height b.mines fuel ∅ [(x, y)] b.rows =
      revealLoop b.width b.height b.mines ∅ [(x, y)] b.rows ∧
    revealFrom b x y =
      { b with rows := revealLoop b.width b.height b.mines ∅ [(x, y)] b.rows } := by
  constructor
  · apply revealLoopF_eq
    rw [Finset.sdiff_empty]
    unfold fuelBound at hfuel
    simp only [List.length_cons, List.length_nil]
    omega
  · exact revealFrom_eq_loop b x y

/-- Witness for C9 at the 2×2 demonstration board. -/
theorem C9_witness :
    fuelBound demoBoard1.width demoBoard1.height ≤ 42 ∧
      (revealLoopF demoBoard1.width demoBoard1.height demoBoard1.mines 42 ∅ [(0, 0)]
          demoBoard1.rows =
        revealLoop demoBoard1.width demoBoard1.height demoBoard1.mines ∅ [(0, 0)]
          demoBoard1.rows ∧
      revealFrom demoBoard1 0 0 =
        { demoBoard1 with
            rows := revealLoop demoBoard1.width demoBoard1.height demoBoard1.mines ∅ [(0, 0)]
              demoBoard1.rows }) :=
  ⟨by decide, C9_revealFrom_terminates demoBoard1 0 0 42 (by decide)⟩

/-! ### Claims C1, C2: concrete failing runs -/

/-- C1: the claim "the game never enters Victory while some flagged cell
is not a true mine" fails on the code.  On the fresh 2×2 board with its
single mine at (0,0), flagging (1,1) (not a mine) and then flagging (0,0)
drives `_all_mines_found` true (its `no_empty_flagged` conjunct
`mines_flagged <= num_mines` is vacuous when `mines_flagged == num_mines`),
so the game declares VICTORY while the flag at (1,1) sits on a non-mine. -/
theorem C1_victory_with_flag_on_non_mine :
    (List.foldl update demoGame1
      [some ⟨CmdType.NONE, 0, 0⟩, some ⟨CmdType.TOGGLE_FLAG, 1, 1⟩,
        some ⟨CmdType.TOGGLE_FLAG, 0, 0⟩]).state = VICTORY ∧
    (List.foldl update demoGame1
      [some ⟨CmdType.NONE, 0, 0⟩, some ⟨CmdType.TOGGLE_FLAG, 1, 1⟩,
        some ⟨CmdType.TOGGLE_FLAG, 0, 0⟩]).board.rows (1, 1) = FLAG ∧
    ((1, 1) : Pos) ∉ (List.foldl update demoGame1
      [some ⟨CmdType.NONE, 0, 0⟩, some ⟨CmdType.TOGGLE_FLAG, 1, 1⟩,
        some ⟨CmdType.TOGGLE_FLAG, 0, 0⟩]).board.mines := by
  refine ⟨?_, ?_, ?_⟩ <;> decide

/-- C2: the claim "a cell in any other state (Empty, Count, Mine) is left
untouched by the toggle" fails on the code.  On the fresh 2×2 board with
its single mine at (0,0), revealing (1,1) turns it into the count cell
`1`; toggling the flag there then takes the non-HIDDEN else-branch, which
overwrites the revealed count with `HIDDEN` and decrements the flag
counter to `-1`. -/
theorem C2_toggle_rehides_revealed_cell :
    (List.foldl update demoGame1
      [some ⟨CmdType.NONE, 0, 0⟩, some ⟨CmdType.REVEAL, 1, 1⟩]).board.rows (1, 1) = 1 ∧
    (List.foldl update demoGame1
      [some ⟨CmdType.NONE, 0, 0⟩, some ⟨CmdType.REVEAL, 1, 1⟩,
        some ⟨CmdType.TOGGLE_FLAG, 1, 1⟩]).board.rows (1, 1) = HIDDEN ∧
    (List.foldl update demoGame1
      [some ⟨CmdType.NONE, 0, 0⟩, some ⟨CmdType.REVEAL, 1, 1⟩,
        some ⟨CmdType.TOGGLE_FLAG, 1, 1⟩]).numFlags = -1 := by
  refine ⟨?_, ?_, ?_⟩ <;> decide

/-! ### Claims C5, C10 -/

theorem endGame_cursorPos (s : GameState) (v : Bool) :
    (endGame s v).cursorPos = s.cursorPos := by
  unfold endGame
  cases v <;> rfl

theorem handleReveal_cursorPos (s : GameState) (c : Command) :
    (handleReveal s c).cursorPos = s.cursorPos := by
  unfold handleReveal
  split_ifs <;> first | rfl | exact endGame_cursorPos _ _

theorem handleToggleFlag_cursorPos (s : GameState) (c : Command) :
    (handleToggleFlag s c).cursorPos = s.cursorPos := by
  unfold handleToggleFlag
  dsimp only
  split_ifs <;> first | rfl | rw [endGame_cursorPos]

/-- C5 counterexample: a Reveal command can have an effect although the
cursor's (new) cell is not `Hidden`, because the source gates the reveal
on the cell at `command.pos`, not at the cursor.  On the 2×2 demonstration
board, after flagging (1,0), the command `REVEAL|RIGHT` carrying position
(0,0) moves the cursor to (1,0) — whose cell is `FLAG` — yet the reveal
proceeds (the carried position (0,0) is `Hidden`) and overwrites the flag
at the cursor with the count 1. -/
theorem C5_counterexample :
    (update (List.foldl update demoGame1
        [some ⟨CmdType.NONE, 0, 0⟩, some ⟨CmdType.TOGGLE_FLAG, 1, 0⟩])
        (some ⟨CmdType.REVEAL ||| CmdType.RIGHT, 0, 0⟩)).cursorPos = (1, 0) ∧
    bGet (List.foldl update demoGame1
        [some ⟨CmdType.NONE, 0, 0⟩, some ⟨CmdType.TOGGLE_FLAG, 1, 0⟩]).board (1, 0) =
      some FLAG ∧
    (update (List.foldl update demoGame1
        [some ⟨CmdType.NONE, 0, 0⟩, some ⟨CmdType.TOGGLE_FLAG, 1, 0⟩])
        (some ⟨CmdType.REVEAL ||| CmdType.RIGHT, 0, 0⟩)).board.rows (1, 0) = 1 := by
  refine ⟨?_, ?_, ?_⟩ <;> decide

/-- C5 (amended): for a Reveal command (REVEAL bit set, TOGGLE_FLAG bit
clear) processed in the Active state, the reveal has an effect only if
the cell at the command's *carried position* is `Hidden` (the cursor and
the carried position coincide for the pure in-bounds commands the input
adapter produces, but not in general); if it proceeds and the new cursor
sits on a mine the game transitions to Defeat (revealing the mines),
otherwise `revealFrom` runs at the new cursor position. -/
theorem C5_reveal_behavior (s : GameState) (c : Command)
    (hact : s.state = ACTIVE) (hrev : c.type &&& CmdType.REVEAL ≠ 0)
    (htgl : c.type &&& CmdType.TOGGLE_FLAG = 0) :
    (bGet s.board c.pos ≠ some HIDDEN → update s (some c) = handleMovement s c) ∧
    (bGet s.board c.pos = some HIDDEN →
      ((handleMovement s c).cursorPos ∈ s.board.mines →
        update s (some c) = endGame (handleMovement s c) false) ∧
      ((handleMovement s c).cursorPos ∉ s.board.mines →
        update s (some c) = { handleMovement s c with
          board := revealFrom s.board (handleMovement s c).cursorPos.1
            (handleMovement s c).cursorPos.2 })) := by
  have hcne : c.type ≠ CmdType.NONE := by
    intro h
    rw [h] at hrev
    exact hrev (by decide)
  have hgo : ¬ gameOver s := by
    unfold gameOver
    rw [hact]
    decide
  unfold update
  rw [if_neg (show ¬s.state &&& STARTING ≠ 0 by rw [hact]; decide)]
  dsimp only
  rw [if_neg (show ¬(c.type = CmdType.NONE ∨ gameOver s) from fun h => h.elim hcne hgo)]
  have htg : ∀ X : GameState, handleToggleFlag X c = X := fun X => by
    unfold handleToggleFlag
    rw [if_pos htgl]
  rw [htg]
  unfold handleReveal
  rw [if_neg hrev, show (handleMovement s c).board = s.board from rfl]
  constructor
  · intro hng
    rw [if_pos hng]
  · intro hyes
    rw [if_neg (show ¬(bGet s.board c.pos ≠ some HIDDEN) from fun h => h hyes)]
    constructor
    · intro hm
      rw [if_pos hm]
    · intro hm
      rw [if_neg hm]

/-- Witness for C5 (amended) at the active 2×2 demonstration game with a
pure Reveal command carried at the mine position (0,0): the game enters
Defeat. -/
theorem C5_witness :
    demoGame1Active.state = ACTIVE ∧
      (⟨CmdType.REVEAL, 0, 0⟩ : Command).type &&& CmdType.REVEAL ≠ 0 ∧
      (⟨CmdType.REVEAL, 0, 0⟩ : Command).type &&& CmdType.TOGGLE_FLAG = 0 ∧
      ((bGet demoGame1Active.board (Command.pos ⟨CmdType.REVEAL, 0, 0⟩) ≠ some HIDDEN →
          update demoGame1Active (some ⟨CmdType.REVEAL, 0, 0⟩) =
            handleMovement demoGame1Active ⟨CmdType.REVEAL, 0, 0⟩) ∧
        (bGet demoGame1Active.board (Command.pos ⟨CmdType.REVEAL, 0, 0⟩) = some HIDDEN →
          ((handleMovement demoGame1Active ⟨CmdType.REVEAL, 0, 0⟩).cursorPos ∈
              demoGame1Active.board.mines →
            update demoGame1Active (some ⟨CmdType.REVEAL, 0, 0⟩) =
              endGame (handleMovement demoGame1Active ⟨CmdType.REVEAL, 0, 0⟩) false) ∧
          ((handleMovement demoGame1Active ⟨CmdType.REVEAL, 0, 0⟩).cursorPos ∉
              demoGame1Active.board.mines →
            update demoGame1Active (some ⟨CmdType.REVEAL, 0, 0⟩) =
              { handleMovement demoGame1Active ⟨CmdType.REVEAL, 0, 0⟩ with
                board := revealFrom demoGame1Active.board
                  (handleMovement demoGame1Active ⟨CmdType.REVEAL, 0, 0⟩).cursorPos.1
                  (handleMovement demoGame1Active ⟨CmdType.REVEAL, 0, 0⟩).cursorPos.2 }))) :=
  ⟨rfl, by decide, by decide,
    C5_reveal_behavior demoGame1Active ⟨CmdType.REVEAL, 0, 0⟩ rfl (by decide) (by decide)⟩

/-- C10: in the Active state every non-`NONE` command repositions the
cursor to the clamp of the command's carried position plus its
directional deltas — independently of the previous cursor — and when the
command carries no direction bits and an in-bounds position, the new
cursor is exactly the carried position (so the cell the reveal handler
examines, `command.pos`, and the cell the toggle handler examines, the
cursor, are the same cell). -/
theorem C10_cursor_from_command (s : GameState) (c : Command)
    (hact : s.state = ACTIVE) (hc : c.type ≠ CmdType.NONE) :
    (update s (some c)).cursorPos = clampPos s.board (movedPos c) ∧
    (c.type &&& CmdType.MOVE = 0 → isInBounds s.board c.pos →
      (update s (some c)).cursorPos = c.pos) := by
  have hgo : ¬ gameOver s := by
    unfold gameOver
    rw [hact]
    decide
  have hcur : (update s (some c)).cursorPos = clampPos s.board (movedPos c) := by
    unfold update
    rw [if_neg (show ¬s.state &&& STARTING ≠ 0 by rw [hact]; decide)]
    dsimp only
    rw [if_neg (show ¬(c.type = CmdType.NONE ∨ gameOver s) from fun h => h.elim hc hgo)]
    rw [handleToggleFlag_cursorPos, handleReveal_cursorPos]
    rfl
  refine ⟨hcur, fun hmov hinb => ?_⟩
  rw [hcur]
  have h32 : c.type &&& CmdType.LEFT = 0 := land_mask_zero (by decide) hmov
  have h64 : c.type &&& CmdType.RIGHT = 0 := land_mask_zero (by decide) hmov
  have h128 : c.type &&& CmdType.UP = 0 := land_mask_zero (by decide) hmov
  have h256 : c.type &&& CmdType.DOWN = 0 := land_mask_zero (by decide) hmov
  have hinb2 : 0 ≤ c.x ∧ c.x < s.board.width ∧ 0 ≤ c.y ∧ c.y < s.board.height := hinb
  obtain ⟨hx0, hxw, hy0, hyh⟩ := hinb2
  unfold clampPos movedPos
  rw [if_neg (show ¬(c.type &&& CmdType.LEFT ≠ 0) from fun hh => hh h32),
    if_neg (show ¬(c.type &&& CmdType.RIGHT ≠ 0) from fun hh => hh h64),
    if_neg (show ¬(c.type &&& CmdType.UP ≠ 0) from fun hh => hh h128),
    if_neg (show ¬(c.type &&& CmdType.DOWN ≠ 0) from fun hh => hh h256)]
  dsimp only
  simp only [add_zero]
  rw [Prod.mk.injEq]
  constructor
  · rw [max_eq_left hx0, min_eq_right (by omega)]
    rfl
  · rw [max_eq_left hy0, min_eq_right (by omega)]
    rfl

/-- Witness for C10 at the active 2×2 demonstration game with a pure
ToggleFlag command carried at (1,0). -/
theorem C10_witness :
    demoGame1Active.state = ACTIVE ∧
      (⟨CmdType.TOGGLE_FLAG, 1, 0⟩ : Command).type ≠ CmdType.NONE ∧
      (⟨CmdType.TOGGLE_FLAG, 1, 0⟩ : Command).type &&& CmdType.MOVE = 0 ∧
      isInBounds demoGame1Active.board (Command.pos ⟨CmdType.TOGGLE_FLAG, 1, 0⟩) ∧
      ((update demoGame1Active (some ⟨CmdType.TOGGLE_FLAG, 1, 0⟩)).cursorPos =
          clampPos demoGame1Active.board (movedPos ⟨CmdType.TOGGLE_FLAG, 1, 0⟩) ∧
        ((⟨CmdType.TOGGLE_FLAG, 1, 0⟩ : Command).type &&& CmdType.MOVE = 0 →
          isInBounds demoGame1Active.board (Command.pos ⟨CmdType.TOGGLE_FLAG, 1, 0⟩) →
          (update demoGame1Active (some ⟨CmdType.TOGGLE_FLAG, 1, 0⟩)).cursorPos =
            Command.pos ⟨CmdType.TOGGLE_FLAG, 1, 0⟩)) :=
  ⟨rfl, by decide, by decide, by decide,
    C10_cursor_from_command demoGame1Active ⟨CmdType.TOGGLE_FLAG, 1, 0⟩ rfl (by decide)⟩

/-! ### Claim C7 -/

/-- C7 counterexample: at a position that is itself a mine, the count used
by the reveal engine differs from the spec's "8-neighbor set excluding p"
count, because `_adjacent_pos` is the full 3×3 product including the cell
itself: on the 2×2 demonstration board the mine cell (0,0) has code count
1 but spec count 0. -/
theorem C7_counterexample :
    countAdj demoBoard1.mines (0, 0) ≠
      specAdjacentCount demoBoard1.width demoBoard1.height demoBoard1.mines (0, 0) := by
  have h1 : countAdj demoBoard1.mines (0, 0) = 1 := by decide
  have h2 : specAdjacentCount demoBoard1.width demoBoard1.height demoBoard1.mines (0, 0) = 0 := by
    unfold specAdjacentCount
    rw [Finset.card_eq_zero]
    ext q
    simp only [Finset.mem_inter, Finset.mem_erase, Finset.not_mem_empty, iff_false]
    rintro ⟨⟨⟨hne, _⟩, _⟩, hqm⟩
    have hq0 : q = ((0, 0) : Pos) := by
      have hx : q ∈ ({((0 : ℤ), (0 : ℤ))} : Finset Pos) := hqm
      simpa using hx
    exact hne hq0
  rw [h1, h2]
  decide

/-- C7 (amended): for every position `p` that is not itself a mine (and
with the mine set within bounds, as `reset` guarantees), the
adjacent-mine count used by the reveal engine equals the size of the
intersection of `p`'s 8-neighbor Moore set (excluding `p`, clipped to
bounds) with the mine set.  At a mine position the code counts one more:
its 3×3 product includes the cell itself. -/
theorem C7_adjacent_count (w h : ℤ) (mines : Finset Pos) (p : Pos)
    (hmb : ∀ q ∈ mines, q ∈ boundsFin w h) (hp : p ∉ mines) :
    countAdj mines p = specAdjacentCount w h mines p := by
  unfold countAdj specAdjacentCount
  refine congrArg Finset.card ?_
  ext q
  simp only [Finset.mem_inter, Finset.mem_erase]
  constructor
  · rintro ⟨hqa, hqm⟩
    have hqp : q ≠ p := by
      rintro rfl
      exact hp hqm
    exact ⟨⟨⟨hqp, hqa⟩, hmb q hqm⟩, hqm⟩
  · rintro ⟨⟨⟨_, hqa⟩, _⟩, hqm⟩
    exact ⟨hqa, hqm⟩

/-- Witness for C7 (amended): on the 2×2 demonstration board the
non-mine position (1,1) has equal code and spec counts. -/
theorem C7_witness :
    (∀ q ∈ demoBoard1.mines, q ∈ boundsFin demoBoard1.width demoBoard1.height) ∧
      ((1, 1) : Pos) ∉ demoBoard1.mines ∧
      countAdj demoBoard1.mines (1, 1) =
        specAdjacentCount demoBoard1.width demoBoard1.height demoBoard1.mines (1, 1) := by
  have hmb : ∀ q ∈ demoBoard1.mines, q ∈ boundsFin demoBoard1.width demoBoard1.height := by
    intro q hq
    have hq0 : q = ((0, 0) : Pos) := by
      have hx : q ∈ ({((0 : ℤ), (0 : ℤ))} : Finset Pos) := hq
      simpa using hx
    subst hq0
    rw [mem_boundsFin]
    decide
  exact ⟨hmb, by decide,
    C7_adjacent_count demoBoard1.width demoBoard1.height demoBoard1.mines (1, 1)
      hmb (by decide)⟩

/-! ### Claim C4 -/

theorem length_allPositions (w h : ℤ) :
    (allPositions w h).length = w.toNat * h.toNat := by
  unfold allPositions
  rw [List.length_map]
  show ((List.range w.toNat) ×ˢ (List.range h.toNat)).length = _
  rw [List.length_product, List.length_range, List.length_range]

theorem nodup_allPositions (w h : ℤ) : (allPositions w h).Nodup := by
  unfold allPositions
  refine List.Nodup.map ?_ (List.Nodup.product (List.nodup_range _) (List.nodup_range _))
  intro a b hab
  rw [Prod.mk.injEq] at hab
  exact Prod.ext (by exact_mod_cast hab.1) (by exact_mod_cast hab.2)

theorem mem_allPositions {w h : ℤ} {p : Pos} :
    p ∈ allPositions w h ↔ inBnds w h p := by
  unfold allPositions inBnds
  constructor
  · intro hp
    obtain ⟨a, ha, rfl⟩ := List.mem_map.1 hp
    obtain ⟨i, j⟩ := a
    have ha2 : i ∈ List.range w.toNat ∧ j ∈ List.range h.toNat := List.mem_product.1 ha
    have hi := List.mem_range.1 ha2.1
    have hj := List.mem_range.1 ha2.2
    exact ⟨by omega, by omega, by omega, by omega⟩
  · rintro ⟨h1, h2, h3, h4⟩
    refine List.mem_map.2 ⟨(p.1.toNat, p.2.toNat),
      List.mem_product.2 ⟨List.mem_range.2 (by omega), List.mem_range.2 (by omega)⟩, ?_⟩
    exact Prod.ext (by simp [Int.toNat_of_nonneg h1]) (by simp [Int.toNat_of_nonneg h3])

/-- C4: for every valid construction (width > 1, height > 1, density in
[0,1]) and every sampling oracle (a permutation `σ` of the position
list), the board produced by `reset` carries exactly
`max(1, floor((width*height − 1) * density))` mines — pairwise distinct
by construction of the mine set — all within bounds, and every cell of
the grid is `HIDDEN`. -/
theorem C4_reset_board (height width : ℤ) (density : ℚ) (σ : List Pos)
    (hw : 1 < width) (hh : 1 < height) (hd0 : 0 ≤ density) (hd1 : density ≤ 1)
    (hσ : σ.Perm (allPositions width height)) :
    (mkBoard height width density σ).mines.card =
      max 1 (⌊(((width * height : ℤ) : ℚ) - 1) * density⌋.toNat) ∧
    (∀ p ∈ (mkBoard height width density σ).mines,
      isInBounds (mkBoard height width density σ) p) ∧
    (∀ p, (mkBoard height width density σ).rows p = HIDDEN) := by
  have hσn : σ.Nodup := (hσ.nodup_iff).2 (nodup_allPositions _ _)
  have hwh : (4 : ℤ) ≤ width * height := by nlinarith
  have hN : ((width.toNat * height.toNat : ℕ) : ℤ) = width * height := by
    rw [Nat.cast_mul, Int.toNat_of_nonneg (by omega), Int.toNat_of_nonneg (by omega)]
  have hσl : σ.length = width.toNat * height.toNat := by
    rw [hσ.length_eq, length_allPositions]
  have hfl : ⌊(((width * height : ℤ) : ℚ) - 1) * density⌋ ≤ width * height - 1 := by
    have h0 : (0 : ℚ) ≤ ((width * height : ℤ) : ℚ) - 1 := by
      rw [show ((width * height : ℤ) : ℚ) - 1 = ((width * height - 1 : ℤ) : ℚ) by push_cast; ring]
      exact_mod_cast (by omega : (0 : ℤ) ≤ width * height - 1)
    calc ⌊(((width * height : ℤ) : ℚ) - 1) * density⌋
        ≤ ⌊((width * height : ℤ) : ℚ) - 1⌋ :=
          Int.floor_le_floor (mul_le_of_le_one_right h0 hd1)
      _ = width * height - 1 := by
          rw [show ((width * height : ℤ) : ℚ) - 1 = ((width * height - 1 : ℤ) : ℚ) by
            push_cast; ring, Int.floor_intCast]
  have hnm : max 1 (⌊(((width * height : ℤ) : ℚ) - 1) * density⌋.toNat) ≤ σ.length := by
    rw [hσl]
    omega
  refine ⟨?_, ?_, fun _ => rfl⟩
  · show ((createMines _ σ).toFinset).card = _
    unfold createMines
    rw [List.toFinset_card_of_nodup (List.Nodup.sublist (List.take_sublist _ _) hσn),
      List.length_take]
    show min (max 1 _) σ.length = _
    omega
  · intro p hp
    have hp2 : p ∈ σ.take (mkBoard height width density σ).numMines :=
      List.mem_toFinset.1 hp
    have hp3 : p ∈ σ := List.take_subset _ _ hp2
    have hp4 : p ∈ allPositions width height := (hσ.mem_iff).1 hp3
    exact mem_allPositions.1 hp4

/-- Witness for C4 at the minimal valid board: 2×2, density 1/8, identity
sampling oracle; `max(1, floor(3 * (1/8))) = 1` mine. -/
theorem C4_witness :
    (1 : ℤ) < 2 ∧ (0 : ℚ) ≤ 1/8 ∧ (1/8 : ℚ) ≤ 1 ∧
      ((mkBoard 2 2 (1/8) (allPositions 2 2)).mines.card =
        max 1 (⌊(((2 * 2 : ℤ) : ℚ) - 1) * (1/8)⌋.toNat) ∧
      (∀ p ∈ (mkBoard 2 2 (1/8) (allPositions 2 2)).mines,
        isInBounds (mkBoard 2 2 (1/8) (allPositions 2 2)) p) ∧
      (∀ p, (mkBoard 2 2 (1/8) (allPositions 2 2)).rows p = HIDDEN)) :=
  ⟨by norm_num, by norm_num, by norm_num,
    C4_reset_board 2 2 (1/8) (allPositions 2 2) (by norm_num) (by norm_num)
      (by norm_num) (by norm_num) (List.Perm.refl _)⟩

/-! ### Claim C8 -/

theorem bGet_eq_some {b : BoardState} {q : Pos} {v : ℕ} (h : bGet b q = some v) :
    isInBounds b q ∧ b.rows q = v := by
  unfold bGet at h
  split at h
  · exact ⟨by assumption, Option.some.inj h⟩
  · exact absurd h (by simp)

theorem bGet_of_inBounds {b : BoardState} {q : Pos} (h : isInBounds b q) :
    bGet b q = some (b.rows q) := by
  unfold bGet
  rw [if_pos h]

/-- C8 counterexample: the risk score can leave [0,1] in a reachable
state.  On the fresh 2×3 board with its single mine at (0,0), flagging
the two non-mine cells (0,1) and (1,1) makes
`general_prob = (1-2)/(4-2) = -1/2`, and the risk of the hidden cell
(1,2) averages nine negative contributions: it is negative. -/
theorem C8_counterexample :
    calcRisk (List.foldl update demoGame2
      [some ⟨CmdType.NONE, 0, 0⟩, some ⟨CmdType.TOGGLE_FLAG, 0, 1⟩,
        some ⟨CmdType.TOGGLE_FLAG, 1, 1⟩]) (1, 2) < 0 := by
  set S := List.foldl update demoGame2
      [some ⟨CmdType.NONE, 0, 0⟩, some ⟨CmdType.TOGGLE_FLAG, 0, 1⟩,
        some ⟨CmdType.TOGGLE_FLAG, 1, 1⟩] with hS
  have h1 : isDefiniteSafe S.board (1, 2) = false := by decide
  have h2 : isDefiniteMine S.board (1, 2) = false := by decide
  have h3 : S.board.numMines = 1 := by decide
  have h4 : S.numFlags = 2 := by decide
  have h5 : numHidden S.board = 4 := by decide
  have b1 : bGet S.board (0, 1) = some FLAG := by decide
  have b2 : bGet S.board (1, 1) = some FLAG := by decide
  have b2x : bGet S.board (1 : ℤ × ℤ) = some FLAG := b2
  have b3 : bGet S.board (0, 2) = some HIDDEN := by decide
  have b4 : bGet S.board (1, 2) = some HIDDEN := by decide
  have b5 : bGet S.board (2, 1) = none := by decide
  have b6 : bGet S.board (2, 2) = none := by decide
  have b7 : bGet S.board (0, 3) = none := by decide
  have b8 : bGet S.board (1, 3) = none := by decide
  have b9 : bGet S.board (2, 3) = none := by decide
  have hgp : generalProb S = -(1/2 : ℚ) := by
    unfold generalProb
    rw [h3, h4, h5]
    norm_num
  unfold calcRisk
  rw [h1, h2]
  simp only [Bool.false_eq_true, if_false]
  unfold probMine
  norm_num [adjacentList]
  rw [b1, b2x, b3, b4, b5, b6, b7, b8, b9]
  norm_num [FLAG, HIDDEN, hgp]

/-- C8 (amended): the risk score lies in [0,1] for every hidden in-bounds
cell of a game state whose bookkeeping is consistent with the board —
`numMines` is the size of the mine set, the mines are in bounds and still
covered, `numFlags` counts the flagged cells, every flag sits on a true
mine, every revealed count cell carries the code's adjacent-mine count,
some mine is still unflagged, and there are at least as many hidden cells
as mines.  (Without these hypotheses the claim is false — see the
counterexample: two flags on non-mines already drive the risk negative.) -/
theorem C8_risk_in_unit_interval (s : GameState) (p : Pos)
    (hM : s.board.numMines = s.board.mines.card)
    (hmb : ∀ q ∈ s.board.mines, q ∈ boundsFin s.board.width s.board.height)
    (hF : s.numFlags = (((boundsFin s.board.width s.board.height).filter
        (fun q => s.board.rows q = FLAG)).card : ℤ))
    (hflag : ∀ q ∈ boundsFin s.board.width s.board.height,
      s.board.rows q = FLAG → q ∈ s.board.mines)
    (hmst : ∀ q ∈ s.board.mines, s.board.rows q = HIDDEN ∨ s.board.rows q = FLAG)
    (hcnt : ∀ q ∈ boundsFin s.board.width s.board.height,
      s.board.rows q ≤ 8 → s.board.rows q = countAdj s.board.mines q)
    (hFM : s.numFlags < (s.board.numMines : ℤ))
    (hMH : s.board.numMines ≤ numHidden s.board)
    (hp : p ∈ boundsFin s.board.width s.board.height)
    (hhid : s.board.rows p = HIDDEN) :
    0 ≤ calcRisk s p ∧ calcRisk s p ≤ 1 := by
  unfold calcRisk
  by_cases h1 : isDefiniteSafe s.board p = true
  · rw [if_pos h1]
    norm_num
  rw [if_neg h1]
  by_cases h2 : isDefiniteMine s.board p = true
  · rw [if_pos h2]
    norm_num
  rw [if_neg h2]
  -- bookkeeping as natural numbers
  have hFMn : ((boundsFin s.board.width s.board.height).filter
      (fun q => s.board.rows q = FLAG)).card < s.board.mines.card := by
    rw [hF, hM] at hFM
    exact_mod_cast hFM
  have hMHn : s.board.mines.card ≤ numHidden s.board := hM ▸ hMH
  -- the base probability lies in [0,1]
  have hgp : 0 ≤ generalProb s ∧ generalProb s ≤ 1 := by
    unfold generalProb
    have hq1 : (s.numFlags : ℚ) < (s.board.numMines : ℚ) := by exact_mod_cast hFM
    have hq2 : ((s.board.numMines : ℕ) : ℚ) ≤ ((numHidden s.board : ℕ) : ℚ) := by
      exact_mod_cast hMH
    have hdpos : (0 : ℚ) < ((numHidden s.board : ℕ) : ℚ) - (s.numFlags : ℚ) := by linarith
    constructor
    · exact div_nonneg (by linarith) (le_of_lt hdpos)
    · rw [div_le_one hdpos]
      linarith
  -- each per-neighbour contribution lies in [0,1]
  have hprob : ∀ q ∈ adjacentList p, 0 ≤ probMine s q ∧ probMine s q ≤ 1 := by
    intro q hq
    have hpq : p ∈ adjacentPos q := adjacentPos_comm.1 (mem_adjacentList_iff.1 hq)
    unfold probMine
    cases hbq : bGet s.board q with
    | none =>
      constructor
      · have := hgp.1
        linarith
      · have h1 := hgp.1
        have h2 := hgp.2
        linarith
    | some v =>
      dsimp only
      by_cases hv8 : 8 < v
      · rw [if_pos hv8]
        exact hgp
      rw [if_neg hv8]
      obtain ⟨hqin, hqrows⟩ := bGet_eq_some hbq
      have hqb : q ∈ boundsFin s.board.width s.board.height := mem_boundsFin.2 hqin
      have hveq : v = countAdj s.board.mines q := by
        rw [← hqrows]
        exact hcnt q hqb (by omega)
      have hsub1 : (adjacentPos q).filter (fun r => bGet s.board r = some FLAG) ⊆
          adjacentPos q ∩ s.board.mines := by
        intro r hr
        rw [Finset.mem_filter] at hr
        obtain ⟨hr1, hr2⟩ := hr
        obtain ⟨hrin, hrrows⟩ := bGet_eq_some hr2
        exact Finset.mem_inter.2 ⟨hr1, hflag r (mem_boundsFin.2 hrin) hrrows⟩
      have hsub2 : (adjacentPos q ∩ s.board.mines) \
          ((adjacentPos q).filter (fun r => bGet s.board r = some FLAG)) ⊆
          (adjacentPos q).filter (fun r => bGet s.board r = some HIDDEN) := by
        intro r hr
        rw [Finset.mem_sdiff] at hr
        obtain ⟨hr1, hr2⟩ := hr
        rw [Finset.mem_inter] at hr1
        have hrin : isInBounds s.board r := mem_boundsFin.1 (hmb r hr1.2)
        have hrget : bGet s.board r = some (s.board.rows r) := bGet_of_inBounds hrin
        rcases hmst r hr1.2 with hh | hh
        · exact Finset.mem_filter.2 ⟨hr1.1, by rw [hrget, hh]⟩
        · exact absurd (Finset.mem_filter.2 ⟨hr1.1, by rw [hrget, hh]⟩) hr2
      have hfl_le : ((adjacentPos q).filter (fun r => bGet s.board r = some FLAG)).card ≤
          (adjacentPos q ∩ s.board.mines).card := Finset.card_le_card hsub1
      have hvfl : (adjacentPos q ∩ s.board.mines).card -
          ((adjacentPos q).filter (fun r => bGet s.board r = some FLAG)).card ≤
          ((adjacentPos q).filter (fun r => bGet s.board r = some HIDDEN)).card := by
        calc (adjacentPos q ∩ s.board.mines).card -
            ((adjacentPos q).filter (fun r => bGet s.board r = some FLAG)).card =
            ((adjacentPos q ∩ s.board.mines) \
              ((adjacentPos q).filter (fun r => bGet s.board r = some FLAG))).card :=
              (Finset.card_sdiff hsub1).symm
          _ ≤ _ := Finset.card_le_card hsub2
      have hhid1 : 0 < ((adjacentPos q).filter
          (fun r => bGet s.board r = some HIDDEN)).card := by
        refine Finset.card_pos.2 ⟨p, Finset.mem_filter.2 ⟨hpq, ?_⟩⟩
        rw [bGet_of_inBounds (mem_boundsFin.1 hp), hhid]
      unfold countNbrState
      unfold countAdj at hveq
      set A := (adjacentPos q ∩ s.board.mines).card with hA
      set FL := ((adjacentPos q).filter (fun r => bGet s.board r = some FLAG)).card with hFL
      set HD := ((adjacentPos q).filter (fun r => bGet s.board r = some HIDDEN)).card with hHD
      have hdpos : (0 : ℚ) < (HD : ℚ) := by exact_mod_cast hhid1
      constructor
      · apply div_nonneg _ (le_of_lt hdpos)
        rw [hveq]
        have hcst : (FL : ℚ) ≤ (A : ℚ) := by exact_mod_cast hfl_le
        linarith
      · rw [div_le_one hdpos, hveq]
        have h1 : ((A - FL : ℕ) : ℚ) ≤ (HD : ℚ) := by exact_mod_cast hvfl
        rw [Nat.cast_sub hfl_le] at h1
        linarith
  -- the average of nine values, each in [0,1], is in [0,1]
  have hlen : ((adjacentList p).map (probMine s)).length = 9 := by
    rw [List.length_map]
    rfl
  have hsum0 : 0 ≤ ((adjacentList p).map (probMine s)).sum := by
    apply List.sum_nonneg
    intro x hx
    obtain ⟨q, hq, rfl⟩ := List.mem_map.1 hx
    exact (hprob q hq).1
  have hsum1 : ((adjacentList p).map (probMine s)).sum ≤ 9 := by
    have hstep := List.sum_le_card_nsmul ((adjacentList p).map (probMine s)) 1 ?_
    · rw [hlen] at hstep
      simpa using hstep
    · intro x hx
      obtain ⟨q, hq, rfl⟩ := List.mem_map.1 hx
      exact (hprob q hq).2
  rw [hlen]
  push_cast
  constructor
  · exact div_nonneg hsum0 (by norm_num)
  · rw [div_le_one (by norm_num : (0 : ℚ) < 9)]
    exact hsum1

/-- Witness for C8 (amended) at the fresh active 2×2 demonstration game
and its hidden cell (1,1): all consistency hypotheses hold and the risk
lies in [0,1]. -/
theorem C8_witness :
    demoGame1Active.board.numMines = demoGame1Active.board.mines.card ∧
    (∀ q ∈ demoGame1Active.board.mines,
      q ∈ boundsFin demoGame1Active.board.width demoGame1Active.board.height) ∧
    demoGame1Active.numFlags =
      (((boundsFin demoGame1Active.board.width demoGame1Active.board.height).filter
        (fun q => demoGame1Active.board.rows q = FLAG)).card : ℤ) ∧
    (∀ q ∈ boundsFin demoGame1Active.board.width demoGame1Active.board.height,
      demoGame1Active.board.rows q = FLAG → q ∈ demoGame1Active.board.mines) ∧
    (∀ q ∈ demoGame1Active.board.mines,
      demoGame1Active.board.rows q = HIDDEN ∨ demoGame1Active.board.rows q = FLAG) ∧
    (∀ q ∈ boundsFin demoGame1Active.board.width demoGame1Active.board.height,
      demoGame1Active.board.rows q ≤ 8 →
        demoGame1Active.board.rows q = countAdj demoGame1Active.board.mines q) ∧
    demoGame1Active.numFlags < (demoGame1Active.board.numMines : ℤ) ∧
    demoGame1Active.board.numMines ≤ numHidden demoGame1Active.board ∧
    ((1, 1) : Pos) ∈ boundsFin demoGame1Active.board.width demoGame1Active.board.height ∧
    demoGame1Active.board.rows (1, 1) = HIDDEN ∧
    (0 ≤ calcRisk demoGame1Active (1, 1) ∧ calcRisk demoGame1Active (1, 1) ≤ 1) :=
  ⟨by decide, by decide, by decide, by decide, by decide, by decide, by decide, by decide,
    by decide, rfl,
    C8_risk_in_unit_interval demoGame1Active (1, 1) (by decide) (by decide) (by decide)
      (by decide) (by decide) (by decide) (by decide) (by decide) (by decide) rfl⟩

end Minesweeper
